import Mathlib

/-!
Verification of the stage-1 core of the MiCall-Lite pipeline
(`micall/core/sam2aln.py`): CIGAR decoding (`apply_cigar`), quality-driven
mate-pair merging (`merge_pairs`), per-pair processing (`parse_sam`) and
variant aggregation (`sam2aln`).

Sequences, quality strings and CIGAR strings are modelled as `List Char`;
Phred qualities are `Int` (Python computes `ord(q) - 33`, which is `-1` for
the space character used as the placeholder quality of deletions); the
fraction of `N` bases is a rational number.  Python exceptions are modelled
with `Except String`.  The Python source indexes `qual[i]` alongside
`seq[i]` and would raise `IndexError` when a quality string is shorter than
its sequence; the embedding walks a sequence and its quality string in
lockstep, so theorems assume each quality string has the length of its
sequence.
-/

/-- Phred-scaled quality of one quality character: `ord(c) - 33`. -/
def qualVal (c : Char) : Int := (c.toNat : Int) - 33

/-- Resolution of one position covered by both mates
(`merge_pairs`, body of the `i < len(seq1)` branch). -/
def mergeChar (c1 : Char) (q1 : Int) (c2 : Char) (q2 : Int)
    (q_cutoff minimum_q_delta : Int) : Char :=
  if c1 = '-' ∧ c2 = '-' then '-'
  else if c1 = c2 then
    (if q1 > q_cutoff ∨ q2 > q_cutoff then c1 else 'N')
  else
    (if |q2 - q1| ≥ minimum_q_delta then
      (if q1 > max q2 q_cutoff then c1
       else if q2 > max q1 q_cutoff then c2
       else 'N')
     else 'N')

/-- Resolution of one position past the end of the shorter mate
(`merge_pairs`, body of the `else` branch of `i < len(seq1)`). -/
def mergeTailChar (c2 : Char) (q2 : Int) (q_cutoff : Int) : Char :=
  if c2 = '-' ∧ q2 = 0 then 'n'
  else if q2 > q_cutoff then c2
  else 'N'

/-- The main loop of `merge_pairs`: `for i, c2 in enumerate(seq2)` after the
normalizing swap, walking the second (longer) mate and, while it lasts, the
first mate in lockstep. -/
def mergeBody : List Char → List Char → List Char → List Char → Int → Int → List Char
  | s1, q1, c2 :: s2, d2 :: q2, qc, delta =>
    match s1, q1 with
    | c1 :: s1t, d1 :: q1t =>
      mergeChar c1 (qualVal d1) c2 (qualVal d2) qc delta ::
        mergeBody s1t q1t s2 q2 qc delta
    | _, _ => mergeTailChar c2 (qualVal d2) qc :: mergeBody [] [] s2 q2 qc delta
  | _, _, _, _, _, _ => []

/-- `merge_pairs` without insertion splicing: the swap forcing the second
read to be the longest of the two, followed by the main loop. -/
def mergeNoIns (seq1 seq2 qual1 qual2 : List Char) (q_cutoff minimum_q_delta : Int) :
    List Char :=
  if seq2.length < seq1.length then
    mergeBody seq2 qual2 seq1 qual1 q_cutoff minimum_q_delta
  else
    mergeBody seq1 qual1 seq2 qual2 q_cutoff minimum_q_delta

/-- The insertion-splicing loop of `merge_pairs`:
`for pos in range(len(mseq)-1, -1, -1)`, splicing the recursively merged
insertion (which uses the default cutoff 10 and delta 5, with no nested
insertions) into the merged sequence at each position, right to left. -/
def spliceFrom (ins1 ins2 : Nat → List Char × List Char) :
    Nat → List Char → List Char
  | 0, m => m
  | p + 1, m =>
    let e1 := ins1 p
    let e2 := ins2 p
    let m' := if e1.1 = [] ∧ e2.1 = [] then m
      else m.take p ++ mergeNoIns e1.1 e2.1 e1.2 e2.2 10 5 ++ m.drop p
    spliceFrom ins1 ins2 p m'

/-- The all-empty insertion map (`ins1 = None` in the source becomes `{}`;
lookups use `ins.get(pos, ('', ''))`). -/
def emptyIns : Nat → List Char × List Char := fun _ => ([], [])

/-- `merge_pairs(seq1, seq2, qual1, qual2, ins1, ins2, q_cutoff,
minimum_q_delta)`: merge the two mates position by position, then splice in
recursively merged insertions from the rightmost position to the leftmost. -/
def merge_pairs (seq1 seq2 qual1 qual2 : List Char)
    (ins1 ins2 : Nat → List Char × List Char)
    (q_cutoff minimum_q_delta : Int) : List Char :=
  let m := mergeNoIns seq1 seq2 qual1 qual2 q_cutoff minimum_q_delta
  spliceFrom ins1 ins2 m.length m

example :
    merge_pairs ['A', 'C'] ['A', 'C', 'G'] ['I', 'I'] ['I', 'I', 'I']
      emptyIns emptyIns 10 5 = ['A', 'C', 'G'] := by decide

example :
    merge_pairs ['A'] ['C'] ['I'] ['#'] emptyIns emptyIns 10 5 = ['A'] := by
  decide

example :
    merge_pairs ['A'] ['C'] ['I'] ['H'] emptyIns emptyIns 10 5 = ['N'] := by
  decide

/-! ## CIGAR decoding (`apply_cigar`) -/

/-- Python slice `l[a:a+n]` for a non-negative start and length (slices
clamp at the end of the list). -/
def pySliceLen (l : List Char) (a n : Nat) : List Char := (l.drop a).take n

/-- Python slice `l[a:b]` with `b = None` meaning no upper bound. -/
def pySlice (l : List Char) (a : Nat) (b : Option Nat) : List Char :=
  match b with
  | none => l.drop a
  | some b => (l.take b).drop a

/-- The CIGAR operation characters admitted by the token grammar
`([0-9]+[MIDNSHPX=])*`. -/
def isCigarOp (c : Char) : Bool :=
  c = 'M' ∨ c = 'I' ∨ c = 'D' ∨ c = 'N' ∨ c = 'S' ∨ c = 'H' ∨ c = 'P' ∨
    c = 'X' ∨ c = '='

/-- Numeric value of a digit run (`int` applied to the matched digits). -/
def digitsVal (ds : List Char) : Nat :=
  ds.foldl (fun n c => 10 * n + (c.toNat - 48)) 0

/-- Left-to-right scanner for the CIGAR token grammar, carrying the digit
run read so far.  A digit extends the run; an operation character closes a
nonempty run into one token; anything else, or an operation with no
pending digits, or leftover digits at the end, is a grammar violation. -/
def parseCigarAux : List Char → List Char → Option (List (Nat × Char))
  | digs, [] => if digs = [] then some [] else none
  | digs, c :: rest =>
    if c.isDigit then parseCigarAux (digs ++ [c]) rest
    else if isCigarOp c ∧ digs ≠ [] then
      (parseCigarAux [] rest).map (fun ts => (digitsVal digs, c) :: ts)
    else none

/-- Tokenization of a CIGAR string.  Returns `some tokens` exactly when the
whole string matches `^((\d+)([MIDNSHPX=]))*$` (the source's `is_valid`
check), in which case `tokens` is what `re.findall` extracts: each token is
a length and an operation character. -/
def parseCigarTokens (l : List Char) : Option (List (Nat × Char)) :=
  parseCigarAux [] l

/-- Number of read bases one token consumes (how much it advances `left`):
`M`, `I` and `S` consume their length; `D` consumes nothing. -/
def consumeLen (t : Nat × Char) : Nat :=
  if t.2 = 'M' ∨ t.2 = 'I' ∨ t.2 = 'S' then t.1 else 0

/-- Number of read bases a token list consumes: the final value of `left`. -/
def cigarConsumed : List (Nat × Char) → Nat
  | [] => 0
  | t :: ts => consumeLen t + cigarConsumed ts

/-- Update of the insertion dictionary `insertions[key] = value`: replace in
place if the key is present, otherwise append (dictionary iteration order is
realized as ascending insertion order, which is how the Python 2 dict
iterates its small integer keys here). -/
def insUpd (ins : List (Nat × List Char × List Char)) (k : Nat)
    (v : List Char × List Char) : List (Nat × List Char × List Char) :=
  if ins.any (fun e => e.1 = k) then
    ins.map (fun e => if e.1 = k then (k, v) else e)
  else ins ++ [(k, v)]

/-- One pass of the token loop of `apply_cigar`, carrying the built
sequence, quality, insertion dictionary and `left`.  The error messages
abbreviate the source's `format` calls. -/
def runTokens (seq qual : List Char) (pos : Nat) (end? : Option Nat) :
    List (Nat × Char) → List Char → List Char →
    List (Nat × List Char × List Char) → Nat →
    Except String (List Char × List Char × List (Nat × List Char × List Char) × Nat)
  | [], ns, nq, ins, left => .ok (ns, nq, ins, left)
  | (len, op) :: ts, ns, nq, ins, left =>
    let step : Except String
        (List Char × List Char × List (Nat × List Char × List Char) × Nat) :=
      if op = 'M' then
        .ok (ns ++ pySliceLen seq left len, nq ++ pySliceLen qual left len,
          ins, left + len)
      else if op = 'D' then
        .ok (ns ++ List.replicate len '-', nq ++ List.replicate len ' ', ins, left)
      else if op = 'I' then
        .ok (ns, nq,
          (if end? = none ∨ left < end?.getD 0 then
            insUpd ins (left + pos) (pySliceLen seq left len, pySliceLen qual left len)
          else ins), left + len)
      else if op = 'S' then
        .ok (ns, nq, ins, left + len)
      else .error "Unsupported CIGAR token"
    match step with
    | .error e => .error e
    | .ok (ns', nq', ins', left') =>
      if seq.length < left' then
        .error "CIGAR string is too long for sequence"
      else runTokens seq qual pos end? ts ns' nq' ins' left'

/-- `apply_cigar(cigar, seq, qual, pos, clip_from, clip_to)`: validate the
CIGAR against the token grammar, replay the tokens over the read, pad on
the left with `pos` gaps (quality `'!'`), then clip to
`[clip_from : clip_to + 1]`.  Raises (models as `.error`) on an invalid
grammar, an unsupported token, a token list that consumes more than the
read, or one that consumes less than the full read. -/
def apply_cigar (cigar seq qual : List Char) (pos : Nat := 0)
    (clip_from : Nat := 0) (clip_to : Option Nat := none) :
    Except String (List Char × List Char × List (Nat × List Char × List Char)) :=
  match parseCigarTokens cigar with
  | none => .error ("Invalid CIGAR string: " ++ String.mk cigar)
  | some tokens =>
    let end? := clip_to.map (· + 1)
    match runTokens seq qual pos end? tokens (List.replicate pos '-')
        (List.replicate pos '!') [] 0 with
    | .error e => .error e
    | .ok (ns, nq, ins, left) =>
      if left < seq.length then
        .error "CIGAR string is too short for sequence"
      else .ok (pySlice ns clip_from end?, pySlice nq clip_from end?, ins)

example :
    apply_cigar ['3', 'M'] ['A', 'C', 'G'] ['I', 'I', 'I'] =
      .ok (['A', 'C', 'G'], ['I', 'I', 'I'], []) := rfl

example :
    apply_cigar ['1', 'M', '1', 'I', '1', 'M'] ['A', 'C', 'G'] ['I', 'J', 'K'] =
      .ok (['A', 'G'], ['I', 'K'], [(1, ['C'], ['J'])]) := rfl

example :
    apply_cigar ['2', 'D', '2', 'M'] ['A', 'C'] ['I', 'I'] 3 =
      .ok (['-', '-', '-', '-', '-', 'A', 'C'],
           ['!', '!', '!', ' ', ' ', 'I', 'I'], []) := rfl

example : parseCigarTokens ['1', '2', 'M', '3', 'I'] = some [(12, 'M'), (3, 'I')] := rfl

example : parseCigarTokens ['M'] = none := rfl

example : parseCigarTokens ['3', 'M', '4'] = none := rfl

/-! ## Variant aggregation (`len_gap_prefix`, `sam2aln` output loop) -/

/-- `len_gap_prefix(s)`: length of the leading run of `'-'` characters
(the `^[-]+` regular expression). -/
def gapPrefixLen (s : List Char) : Nat := (s.takeWhile (fun c => c = '-')).length

/-- Python `s.strip('-')`: remove leading and trailing `'-'` characters. -/
def stripGaps (s : List Char) : List Char :=
  ((s.dropWhile (fun c => c = '-')).reverse.dropWhile (fun c => c = '-')).reverse

example : stripGaps ['-', '-', 'A', '-', 'C', '-'] = ['A', '-', 'C'] := rfl

example : gapPrefixLen ['-', '-', 'A'] = 2 := rfl

/-- Python string comparison (`s < t`): lexicographic by character code,
with a proper prefix ordered before its extensions. -/
def charListLt : List Char → List Char → Bool
  | [], [] => false
  | [], _ :: _ => true
  | _ :: _, [] => false
  | a :: as, b :: bs => if a < b then true else if b < a then false else charListLt as bs

/-- Python comparison of two `(count, len_gap_prefix(s), s)` triples,
`a ≥ b`: the order used by `intermed.sort(reverse=True)`. -/
def tripleGe (a b : Nat × Nat × List Char) : Bool :=
  if a.1 ≠ b.1 then decide (b.1 < a.1)
  else if a.2.1 ≠ b.2.1 then decide (b.2.1 < a.2.1)
  else !(charListLt a.2.2 b.2.2)

/-- `tripleGe` as a relation, for use with `List.insertionSort`. -/
def variantGe (a b : Nat × Nat × List Char) : Prop := tripleGe a b = true

instance : DecidableRel variantGe := fun a b => instDecidableEqBool (tripleGe a b) true

/-- The multiplicity of one merged sequence in a group's accumulated
stream: the value the group's `Counter` holds for it. -/
def seqCount (mseqs : List (List Char)) (s : List Char) : Nat :=
  mseqs.countP (fun t => decide (t = s))

/-- The `(count, len_gap_prefix(s), s)` triples of one (refname, qcut)
group, one per distinct merged sequence, sorted in the descending Python
tuple order (`intermed.sort(reverse=True)`).  `mseqs` is the stream of
merged sequences the group's `Counter` accumulated. -/
def rankTriples (mseqs : List (List Char)) : List (Nat × Nat × List Char) :=
  List.insertionSort variantGe
    (mseqs.dedup.map (fun s => (seqCount mseqs s, gapPrefixLen s, s)))

/-- One row of the aligned CSV. -/
structure AlignedRow where
  refname : String
  qcut : Int
  rank : Nat
  count : Nat
  offset : Nat
  seq : List Char
deriving DecidableEq

/-- The aligned rows of one (refname, qcut) group: the sorted triples
enumerated into rank order, the sequence stripped of flanking gaps only in
the output `seq` field. -/
def rankRows (refname : String) (qcut : Int) (mseqs : List (List Char)) :
    List AlignedRow :=
  (rankTriples mseqs).enum.map
    (fun e => ⟨refname, qcut, e.1, e.2.1, e.2.2.1, stripGaps e.2.2.2⟩)

example :
    rankRows "r" 15 [['A', 'C'], ['-', 'G'], ['A', 'C']] =
      [⟨"r", 15, 0, 2, 0, ['A', 'C']⟩, ⟨"r", 15, 1, 1, 1, ['G']⟩] := by decide

/-! ## Per-pair processing (`parse_sam`) and the driver (`sam2aln`) -/

/-- One SAM row of the remap CSV, with `pos` still 1-based and `mapq`
already converted to an integer as the source does. -/
structure SamRow where
  qname : String
  flag : Nat
  rname : String
  pos : Nat
  mapq : Int
  cigar : List Char
  seq : List Char
  qual : List Char
deriving DecidableEq

/-- `is_first_read(flag)`: bit `0x40` of the SAM flag. -/
def is_first_read (flag : Nat) : Bool := flag.land 64 ≠ 0

/-- One row of the insertion CSV. -/
structure InsertRow where
  qname : String
  fwd_rev : Char
  refname : String
  pos : Nat
  insert : List Char
  qual : List Char
deriving DecidableEq

/-- One row of the failed CSV: either the filter failure of an unmapped /
low-quality / reference-discordant pair (missing mate fields are `none`,
written blank by the CSV writer), or a per-cutoff excess-`N` merge
failure. -/
inductive FailRow where
  | unmapped (qname : String) (seq1 qual1 : List Char)
      (seq2 qual2 : Option (List Char)) (mapq1 : Int) (mapq2 : Option Int)
  | excessN (qname : String) (qcut : Int) (seq1 qual1 seq2 qual2 : List Char)
      (prop_N : ℚ) (mseq : List Char)
deriving DecidableEq

/-- The merged sequence of one pair at one cutoff:
`merge_pairs(seq1, seq2, qual1, qual2, q_cutoff=qcut)` with the default
insertion maps and default `minimum_q_delta=5`. -/
def mergedAt (seq1 qual1 seq2 qual2 : List Char) (qcut : Int) : List Char :=
  merge_pairs seq1 seq2 qual1 qual2 emptyIns emptyIns qcut 5

/-- `prop_N = mseq.count('N') / float(len(mseq.strip('-')))`.  The source
divides by a float and would raise `ZeroDivisionError` on an all-gap merged
sequence; the rational division yields `0` there, and theorems about the
threshold assume the stripped length is nonzero. -/
def propN (mseq : List Char) : ℚ :=
  (mseq.count 'N' : ℚ) / ((stripGaps mseq).length : ℚ)

/-- The accepted entries of the per-cutoff merge loop of `parse_sam`:
`mseqs[qcut] = mseq` for each configured cutoff whose merge is not
rejected by the `prop_N > max_prop_N` test. -/
def cutoffMseqs (seq1 qual1 seq2 qual2 : List Char) (max_prop_N : ℚ)
    (cutoffs : List Int) : List (Int × List Char) :=
  cutoffs.filterMap (fun qcut =>
    let mseq := mergedAt seq1 qual1 seq2 qual2 qcut
    if propN mseq > max_prop_N then none else some (qcut, mseq))

/-- The rejected entries of the per-cutoff merge loop of `parse_sam`: the
failure rows appended when `prop_N > max_prop_N`. -/
def cutoffFails (qname : String) (seq1 qual1 seq2 qual2 : List Char)
    (max_prop_N : ℚ) (cutoffs : List Int) : List FailRow :=
  cutoffs.filterMap (fun qcut =>
    let mseq := mergedAt seq1 qual1 seq2 qual2 qcut
    if propN mseq > max_prop_N then
      some (.excessN qname qcut seq1 qual1 seq2 qual2 (propN mseq) mseq)
    else none)

/-- The result of `parse_sam` on one pair of matched rows. -/
structure ParseOut where
  rname : String
  mseqs : List (Int × List Char)
  inserts : List InsertRow
  fails : List FailRow
deriving DecidableEq

/-- The insertion rows reported for one decoded mate. -/
def insertRowsOf (qname rname : String) (flag : Nat) (pos0 : Nat)
    (ins : List (Nat × List Char × List Char)) : List InsertRow :=
  ins.map (fun e =>
    ⟨qname, if is_first_read flag then 'F' else 'R', rname, pos0 + e.1,
      e.2.1, e.2.2⟩)

/-- `parse_sam(rows)`: reject the pair to the failure report if a mate is
missing or unmapped (`cigar == '*'`), a mapping quality is below
`read_mapping_cutoff`, or the mates disagree on the reference; otherwise
decode both mates with `apply_cigar`, report their insertions, left-pad
each mate to its 0-based position (`'-'` bases, `'!'` qualities) and merge
at every configured cutoff.  A decoding failure propagates as an error. -/
def parse_sam (read_mapping_cutoff : Int) (cutoffs : List Int)
    (max_prop_N : ℚ) (row1 : SamRow) (row2? : Option SamRow) :
    Except String ParseOut :=
  match row2? with
  | none =>
    .ok ⟨row1.rname, [], [],
      [.unmapped row1.qname row1.seq row1.qual none none row1.mapq none]⟩
  | some row2 =>
    if row1.cigar = ['*'] ∨ row1.mapq < read_mapping_cutoff ∨
        row2.cigar = ['*'] ∨ row2.mapq < read_mapping_cutoff ∨
        row1.rname ≠ row2.rname then
      .ok ⟨row1.rname, [], [],
        [.unmapped row1.qname row1.seq row1.qual (some row2.seq)
          (some row2.qual) row1.mapq (some row2.mapq)]⟩
    else
      match apply_cigar row1.cigar row1.seq row1.qual with
      | .error e => .error e
      | .ok (s1, q1, ins1) =>
        match apply_cigar row2.cigar row2.seq row2.qual with
        | .error e => .error e
        | .ok (s2, q2, ins2) =>
          let pos1 := row1.pos - 1
          let pos2 := row2.pos - 1
          let s1p := List.replicate pos1 '-' ++ s1
          let q1p := List.replicate pos1 '!' ++ q1
          let s2p := List.replicate pos2 '-' ++ s2
          let q2p := List.replicate pos2 '!' ++ q2
          .ok ⟨row1.rname,
            cutoffMseqs s1p q1p s2p q2p max_prop_N cutoffs,
            insertRowsOf row1.qname row1.rname row1.flag pos1 ins1 ++
              insertRowsOf row1.qname row1.rname row2.flag pos2 ins2,
            cutoffFails row1.qname s1p q1p s2p q2p max_prop_N cutoffs⟩

/-- The reading loop of `sam2aln`: walk the matched pairs in stream order,
writing each result's insertion and failure rows and accumulating the
`(rname, qcut, mseq)` stream for the nested counters.  An exception from
`parse_sam` aborts the loop: rows already written stay written, nothing
after the failing pair is processed, and the aligned output (written only
after the loop) is never produced. -/
def sam2alnCollect (read_mapping_cutoff : Int) (cutoffs : List Int)
    (max_prop_N : ℚ) :
    List (SamRow × Option SamRow) →
    List InsertRow × List FailRow × Except String (List (String × Int × List Char))
  | [] => ([], [], .ok [])
  | p :: ps =>
    match parse_sam read_mapping_cutoff cutoffs max_prop_N p.1 p.2 with
    | .error e => ([], [], .error e)
    | .ok out =>
      let rest := sam2alnCollect read_mapping_cutoff cutoffs max_prop_N ps
      (out.inserts ++ rest.1, out.fails ++ rest.2.1,
        match rest.2.2 with
        | .error e => .error e
        | .ok ts => .ok (out.mseqs.map (fun qm => (out.rname, qm.1, qm.2)) ++ ts))

/-- The aligned-output loop of `sam2aln`: group the accumulated merged
sequences by reference then cutoff and emit each group's ranked rows. -/
def alignedRows (ts : List (String × Int × List Char)) : List AlignedRow :=
  ((ts.map (fun t => t.1)).dedup).flatMap (fun rn =>
    (((ts.filter (fun t => t.1 = rn)).map (fun t => t.2.1)).dedup).flatMap
      (fun qc =>
        rankRows rn qc
          ((ts.filter (fun t => t.1 = rn ∧ t.2.1 = qc)).map (fun t => t.2.2))))

/-- `sam2aln`: insertion rows, failure rows, and (unless a decoding error
aborted the stream) the ranked aligned rows. -/
def sam2aln (read_mapping_cutoff : Int) (cutoffs : List Int) (max_prop_N : ℚ)
    (pairs : List (SamRow × Option SamRow)) :
    List InsertRow × List FailRow × Except String (List AlignedRow) :=
  let c := sam2alnCollect read_mapping_cutoff cutoffs max_prop_N pairs
  (c.1, c.2.1, c.2.2.map alignedRows)

/-- What the token loop appends to one strand (the built sequence when
`src = seq, gap = '-'`; the built quality string when
`src = qual, gap = ' '`): `M` copies a slice of the strand, `D` emits
`len` copies of the gap character, `I` and `S` contribute nothing. -/
def strandContrib (src : List Char) (gap : Char) : Nat → List (Nat × Char) → List Char
  | _, [] => []
  | left, (len, op) :: ts =>
    (if op = 'M' then pySliceLen src left len
     else if op = 'D' then List.replicate len gap
     else []) ++ strandContrib src gap (left + consumeLen (len, op)) ts

/-- The insertion entries the token loop records: one per `I` token whose
current `left` satisfies `end is None or left < end`, keyed `left + pos`. -/
def insContrib (seq qual : List Char) (pos : Nat) (end? : Option Nat) :
    Nat → List (Nat × Char) → List (Nat × List Char × List Char)
  | _, [] => []
  | left, (len, op) :: ts =>
    (if op = 'I' ∧ (end? = none ∨ left < end?.getD 0) then
      [(left + pos, pySliceLen seq left len, pySliceLen qual left len)]
     else []) ++ insContrib seq qual pos end? (left + consumeLen (len, op)) ts

/-- Step equation of the token loop for an `M` token. -/
theorem runTokens_M (seq qual : List Char) (pos : Nat) (end? : Option Nat)
    (len : Nat) (ts : List (Nat × Char)) (ns nq : List Char)
    (ins : List (Nat × List Char × List Char)) (left : Nat) :
    runTokens seq qual pos end? ((len, 'M') :: ts) ns nq ins left =
      if seq.length < left + len then .error "CIGAR string is too long for sequence"
      else runTokens seq qual pos end? ts (ns ++ pySliceLen seq left len)
        (nq ++ pySliceLen qual left len) ins (left + len) := rfl

/-- Step equation of the token loop for a `D` token. -/
theorem runTokens_D (seq qual : List Char) (pos : Nat) (end? : Option Nat)
    (len : Nat) (ts : List (Nat × Char)) (ns nq : List Char)
    (ins : List (Nat × List Char × List Char)) (left : Nat) :
    runTokens seq qual pos end? ((len, 'D') :: ts) ns nq ins left =
      if seq.length < left then .error "CIGAR string is too long for sequence"
      else runTokens seq qual pos end? ts (ns ++ List.replicate len '-')
        (nq ++ List.replicate len ' ') ins left := rfl

/-- Step equation of the token loop for an `I` token. -/
theorem runTokens_I (seq qual : List Char) (pos : Nat) (end? : Option Nat)
    (len : Nat) (ts : List (Nat × Char)) (ns nq : List Char)
    (ins : List (Nat × List Char × List Char)) (left : Nat) :
    runTokens seq qual pos end? ((len, 'I') :: ts) ns nq ins left =
      if seq.length < left + len then .error "CIGAR string is too long for sequence"
      else runTokens seq qual pos end? ts ns nq
        (if end? = none ∨ left < end?.getD 0 then
          insUpd ins (left + pos) (pySliceLen seq left len, pySliceLen qual left len)
         else ins) (left + len) := rfl

/-- Step equation of the token loop for an `S` token. -/
theorem runTokens_S (seq qual : List Char) (pos : Nat) (end? : Option Nat)
    (len : Nat) (ts : List (Nat × Char)) (ns nq : List Char)
    (ins : List (Nat × List Char × List Char)) (left : Nat) :
    runTokens seq qual pos end? ((len, 'S') :: ts) ns nq ins left =
      if seq.length < left + len then .error "CIGAR string is too long for sequence"
      else runTokens seq qual pos end? ts ns nq ins (left + len) := rfl

/-- The token loop raises on any operation other than `M`, `D`, `I`, `S`. -/
theorem runTokens_unsupported (seq qual : List Char) (pos : Nat)
    (end? : Option Nat) (len : Nat) (op : Char) (ts : List (Nat × Char))
    (ns nq : List Char) (ins : List (Nat × List Char × List Char)) (left : Nat)
    (hM : op ≠ 'M') (hD : op ≠ 'D') (hI : op ≠ 'I') (hS : op ≠ 'S') :
    runTokens seq qual pos end? ((len, op) :: ts) ns nq ins left =
      .error "Unsupported CIGAR token" := by
  simp [runTokens, hM, hD, hI, hS]

/-- Characterization of a successful run of the token loop: the final
`left`, the bound every intermediate length check enforced, and the two
built strands. -/
theorem runTokens_ok_spec (seq qual : List Char) (pos : Nat) (end? : Option Nat) :
    ∀ (ts : List (Nat × Char)) (ns nq : List Char)
      (ins : List (Nat × List Char × List Char)) (left : Nat)
      (r : List Char × List Char × List (Nat × List Char × List Char) × Nat),
      left ≤ seq.length →
      runTokens seq qual pos end? ts ns nq ins left = .ok r →
      r.2.2.2 = left + cigarConsumed ts ∧
      (∀ k, left + cigarConsumed (ts.take k) ≤ seq.length) ∧
      r.1 = ns ++ strandContrib seq '-' left ts ∧
      r.2.1 = nq ++ strandContrib qual ' ' left ts := by
  intro ts
  induction ts with
  | nil =>
    intro ns nq ins left r hleft h
    simp only [runTokens, Except.ok.injEq] at h
    subst h
    exact ⟨by simp [cigarConsumed], fun k => by simpa [cigarConsumed] using hleft,
      by simp [strandContrib], by simp [strandContrib]⟩
  | cons t ts ih =>
    obtain ⟨len, op⟩ := t
    intro ns nq ins left r hleft h
    by_cases hM : op = 'M'
    · subst hM
      rw [runTokens_M] at h
      by_cases hchk : seq.length < left + len
      · rw [if_pos hchk] at h; exact absurd h (by simp)
      · rw [if_neg hchk] at h
        obtain ⟨h1, h2, h3, h4⟩ := ih _ _ _ _ _ (by omega) h
        refine ⟨by simp [h1, cigarConsumed, consumeLen]; omega, ?_, ?_, ?_⟩
        · intro k
          cases k with
          | zero => simpa [cigarConsumed] using hleft
          | succ k =>
            have := h2 k
            simp only [List.take_succ_cons, cigarConsumed, consumeLen] at this ⊢
            simp at this ⊢
            omega
        · simp [h3, strandContrib, consumeLen, List.append_assoc]
        · simp [h4, strandContrib, consumeLen, List.append_assoc]
    · by_cases hD : op = 'D'
      · subst hD
        rw [runTokens_D] at h
        by_cases hchk : seq.length < left
        · rw [if_pos hchk] at h; exact absurd h (by simp)
        · rw [if_neg hchk] at h
          obtain ⟨h1, h2, h3, h4⟩ := ih _ _ _ _ _ hleft h
          refine ⟨by simp [h1, cigarConsumed, consumeLen], ?_, ?_, ?_⟩
          · intro k
            cases k with
            | zero => simpa [cigarConsumed] using hleft
            | succ k =>
              have := h2 k
              simp only [List.take_succ_cons, cigarConsumed, consumeLen] at this ⊢
              simp at this ⊢
              omega
          · simp [h3, strandContrib, consumeLen, List.append_assoc]
          · simp [h4, strandContrib, consumeLen, List.append_assoc]
      · by_cases hI : op = 'I'
        · subst hI
          rw [runTokens_I] at h
          by_cases hchk : seq.length < left + len
          · rw [if_pos hchk] at h; exact absurd h (by simp)
          · rw [if_neg hchk] at h
            obtain ⟨h1, h2, h3, h4⟩ := ih _ _ _ _ _ (by omega) h
            refine ⟨by simp [h1, cigarConsumed, consumeLen]; omega, ?_, ?_, ?_⟩
            · intro k
              cases k with
              | zero => simpa [cigarConsumed] using hleft
              | succ k =>
                have := h2 k
                simp only [List.take_succ_cons, cigarConsumed, consumeLen] at this ⊢
                simp at this ⊢
                omega
            · simpa [strandContrib, consumeLen] using h3
            · simpa [strandContrib, consumeLen] using h4
        · by_cases hS : op = 'S'
          · subst hS
            rw [runTokens_S] at h
            by_cases hchk : seq.length < left + len
            · rw [if_pos hchk] at h; exact absurd h (by simp)
            · rw [if_neg hchk] at h
              obtain ⟨h1, h2, h3, h4⟩ := ih _ _ _ _ _ (by omega) h
              refine ⟨by simp [h1, cigarConsumed, consumeLen]; omega, ?_, ?_, ?_⟩
              · intro k
                cases k with
                | zero => simpa [cigarConsumed] using hleft
                | succ k =>
                  have := h2 k
                  simp only [List.take_succ_cons, cigarConsumed, consumeLen] at this ⊢
                  simp at this ⊢
                  omega
              · simpa [strandContrib, consumeLen] using h3
              · simpa [strandContrib, consumeLen] using h4
          · rw [runTokens_unsupported seq qual pos end? len op ts ns nq ins left
              hM hD hI hS] at h
            exact absurd h (by simp)

/-- Characterization of a successful `apply_cigar` call: the CIGAR passed
the grammar check, every prefix of the tokens consumes at most the read,
the whole token list consumes exactly the read, and the returned strands
are the clipped padded contributions. -/
theorem apply_cigar_ok_spec (cigar seq qual : List Char) (pos clip_from : Nat)
    (clip_to : Option Nat)
    (s q : List Char) (ins : List (Nat × List Char × List Char))
    (h : apply_cigar cigar seq qual pos clip_from clip_to = .ok (s, q, ins)) :
    ∃ ts, parseCigarTokens cigar = some ts ∧
      (∀ k, cigarConsumed (ts.take k) ≤ seq.length) ∧
      cigarConsumed ts = seq.length ∧
      s = pySlice (List.replicate pos '-' ++ strandContrib seq '-' 0 ts)
        clip_from (clip_to.map (· + 1)) ∧
      q = pySlice (List.replicate pos '!' ++ strandContrib qual ' ' 0 ts)
        clip_from (clip_to.map (· + 1)) := by
  unfold apply_cigar at h
  cases hp : parseCigarTokens cigar with
  | none => rw [hp] at h; exact absurd h (by simp)
  | some ts =>
    rw [hp] at h
    simp only at h
    cases hr : runTokens seq qual pos (clip_to.map (· + 1)) ts
        (List.replicate pos '-') (List.replicate pos '!') [] 0 with
    | error e => rw [hr] at h; exact absurd h (by simp)
    | ok r =>
      rw [hr] at h
      simp only at h
      obtain ⟨h1, h2, h3, h4⟩ :=
        runTokens_ok_spec seq qual pos (clip_to.map (· + 1)) ts _ _ _ _ _
          (Nat.zero_le _) hr
      obtain ⟨ns, nq, ins0, left⟩ := r
      simp only at h1 h2 h3 h4
      by_cases hshort : left < seq.length
      · rw [if_pos hshort] at h; exact absurd h (by simp)
      · rw [if_neg hshort] at h
        simp only [Except.ok.injEq, Prod.mk.injEq] at h
        obtain ⟨hs, hq, -⟩ := h
        refine ⟨ts, rfl, ?_, ?_, ?_, ?_⟩
        · intro k
          simpa using h2 k
        · have := h2 ts.length
          simp at this
          omega
        · rw [← hs, h3]
        · rw [← hq, h4]

/-- Whether a result models a raised Python exception. -/
def exceptIsError {α : Type} (x : Except String α) : Bool :=
  match x with
  | .error _ => true
  | .ok _ => false

/-- C6: `apply_cigar` fails with a decoding error whenever the CIGAR string
violates the token grammar, whenever a token prefix's cumulative consumed
length exceeds the length of the base string, and whenever the whole CIGAR
consumes fewer characters than the full base string. -/
theorem apply_cigar_error_conditions (cigar seq qual : List Char)
    (pos clip_from : Nat) (clip_to : Option Nat) :
    (parseCigarTokens cigar = none →
      exceptIsError (apply_cigar cigar seq qual pos clip_from clip_to) = true) ∧
    (∀ ts k, parseCigarTokens cigar = some ts →
      seq.length < cigarConsumed (ts.take k) →
      exceptIsError (apply_cigar cigar seq qual pos clip_from clip_to) = true) ∧
    (∀ ts, parseCigarTokens cigar = some ts →
      cigarConsumed ts < seq.length →
      exceptIsError (apply_cigar cigar seq qual pos clip_from clip_to) = true) := by
  refine ⟨?_, ?_, ?_⟩
  · intro hnone
    cases hres : apply_cigar cigar seq qual pos clip_from clip_to with
    | error e => rfl
    | ok r =>
      obtain ⟨s, q, ins⟩ := r
      obtain ⟨ts, hts, -⟩ := apply_cigar_ok_spec cigar seq qual pos clip_from
        clip_to s q ins hres
      rw [hnone] at hts
      exact absurd hts (by simp)
  · intro ts k hts hgt
    cases hres : apply_cigar cigar seq qual pos clip_from clip_to with
    | error e => rfl
    | ok r =>
      obtain ⟨s, q, ins⟩ := r
      obtain ⟨ts', hts', hpre, -⟩ := apply_cigar_ok_spec cigar seq qual pos
        clip_from clip_to s q ins hres
      rw [hts] at hts'
      obtain rfl : ts = ts' := by simpa using hts'
      exact absurd (hpre k) (by omega)
  · intro ts hts hlt
    cases hres : apply_cigar cigar seq qual pos clip_from clip_to with
    | error e => rfl
    | ok r =>
      obtain ⟨s, q, ins⟩ := r
      obtain ⟨ts', hts', -, htot, -⟩ := apply_cigar_ok_spec cigar seq qual pos
        clip_from clip_to s q ins hres
      rw [hts] at hts'
      obtain rfl : ts = ts' := by simpa using hts'
      omega

/-- Witness for C6: the three failure conditions observed on concrete
inputs — an invalid grammar (`"M"`), a CIGAR consuming more than the read
(`"5M"` on 3 bases), and a CIGAR consuming less than the read (`"2M"` on 3
bases). -/
theorem apply_cigar_error_conditions_witness :
    exceptIsError (apply_cigar ['M'] ['A', 'C', 'G'] ['I', 'I', 'I'] 0 0 none) = true ∧
    exceptIsError (apply_cigar ['5', 'M'] ['A', 'C', 'G'] ['I', 'I', 'I'] 0 0 none) = true ∧
    exceptIsError (apply_cigar ['2', 'M'] ['A', 'C', 'G'] ['I', 'I', 'I'] 0 0 none) = true :=
  ⟨(apply_cigar_error_conditions ['M'] ['A', 'C', 'G'] ['I', 'I', 'I'] 0 0 none).1
      (by decide),
   (apply_cigar_error_conditions ['5', 'M'] ['A', 'C', 'G'] ['I', 'I', 'I'] 0 0 none).2.1
      [(5, 'M')] 1 (by decide) (by decide),
   (apply_cigar_error_conditions ['2', 'M'] ['A', 'C', 'G'] ['I', 'I', 'I'] 0 0 none).2.2
      [(2, 'M')] (by decide) (by decide)⟩

/-- The two strand contributions have the same length whenever the two
source strings do (the `M` slices then cover the same index ranges and the
`D` paddings have equal length). -/
theorem strandContrib_length (src1 src2 : List Char) (gap1 gap2 : Char)
    (h : src1.length = src2.length) :
    ∀ (ts : List (Nat × Char)) (left : Nat),
      (strandContrib src1 gap1 left ts).length =
        (strandContrib src2 gap2 left ts).length := by
  intro ts
  induction ts with
  | nil => intro left; simp [strandContrib]
  | cons t ts ih =>
    intro left
    obtain ⟨len, op⟩ := t
    simp only [strandContrib, List.length_append, ih]
    congr 1
    by_cases hM : op = 'M'
    · simp [hM, pySliceLen, h]
    · by_cases hD : op = 'D' <;> simp [hM, hD]

/-- Python slices of equal-length lists have equal length. -/
theorem pySlice_length (l1 l2 : List Char) (a : Nat) (b : Option Nat)
    (h : l1.length = l2.length) :
    (pySlice l1 a b).length = (pySlice l2 a b).length := by
  cases b <;> simp [pySlice, h]

/-- C10 (amended): whenever `apply_cigar` returns without raising and the
quality string has the length of the base string — as in every SAM record —
the returned clipped sequence and clipped quality string have equal
length.  (Without that hypothesis the claim fails: Python slicing clamps,
so a short quality string yields a short clipped quality, see the
counterexample.) -/
theorem apply_cigar_same_length (cigar seq qual : List Char)
    (pos clip_from : Nat) (clip_to : Option Nat) (s q : List Char)
    (ins : List (Nat × List Char × List Char))
    (hq : qual.length = seq.length)
    (h : apply_cigar cigar seq qual pos clip_from clip_to = .ok (s, q, ins)) :
    s.length = q.length := by
  obtain ⟨ts, -, -, -, hs, hq2⟩ :=
    apply_cigar_ok_spec cigar seq qual pos clip_from clip_to s q ins h
  rw [hs, hq2]
  apply pySlice_length
  simp only [List.length_append, List.length_replicate]
  congr 1
  exact strandContrib_length seq qual '-' ' ' hq.symm ts 0

/-- Witness for C10 (amended): a concrete successful call with matching
lengths returns strands of equal length. -/
theorem apply_cigar_same_length_witness :
    (['A', 'C', 'G'] : List Char).length = (['I', 'I', 'I'] : List Char).length ∧
    (['A', 'C', 'G'] : List Char).length = (['I', 'I', 'I'] : List Char).length :=
  ⟨rfl,
   apply_cigar_same_length ['3', 'M'] ['A', 'C', 'G'] ['I', 'I', 'I'] 0 0 none
     ['A', 'C', 'G'] ['I', 'I', 'I'] [] rfl rfl⟩

/-- Counterexample for C10 as stated: with a quality string shorter than
the base string, `apply_cigar` returns without error, yet the clipped
sequence has length 3 and the clipped quality length 1. -/
theorem apply_cigar_same_length_cex :
    apply_cigar ['3', 'M'] ['A', 'C', 'G'] ['I'] 0 0 none =
      .ok (['A', 'C', 'G'], ['I'], []) ∧
    (['A', 'C', 'G'] : List Char).length ≠ (['I'] : List Char).length :=
  ⟨rfl, by decide⟩

/-- Updating a dictionary at a key absent from it appends the entry. -/
theorem insUpd_fresh (ins : List (Nat × List Char × List Char)) (k : Nat)
    (v : List Char × List Char) (h : ∀ e ∈ ins, e.1 ≠ k) :
    insUpd ins k v = ins ++ [(k, v)] := by
  unfold insUpd
  rw [if_neg]
  simp only [List.any_eq_true, not_exists, not_and]
  intro e he
  simp [h e he]

/-- Characterization of the insertion dictionary built by a successful run
of the token loop, provided every `I` token has positive length (so keys
are distinct and dictionary assignment is always a fresh append): it is the
entry list `insContrib`, and every key stays below `left + pos`. -/
theorem runTokens_ok_ins (seq qual : List Char) (pos : Nat) (end? : Option Nat) :
    ∀ (ts : List (Nat × Char)) (ns nq : List Char)
      (ins : List (Nat × List Char × List Char)) (left : Nat)
      (r : List Char × List Char × List (Nat × List Char × List Char) × Nat),
      (∀ t ∈ ts, t.2 = 'I' → 0 < t.1) →
      (∀ e ∈ ins, e.1 < left + pos) →
      runTokens seq qual pos end? ts ns nq ins left = .ok r →
      r.2.2.1 = ins ++ insContrib seq qual pos end? left ts ∧
      (∀ e ∈ r.2.2.1, e.1 < r.2.2.2 + pos) := by
  intro ts
  induction ts with
  | nil =>
    intro ns nq ins left r hI hkeys h
    simp only [runTokens, Except.ok.injEq] at h
    subst h
    exact ⟨by simp [insContrib], by simpa [insContrib] using hkeys⟩
  | cons t ts ih =>
    obtain ⟨len, op⟩ := t
    intro ns nq ins left r hI hkeys h
    have hIts : ∀ t ∈ ts, t.2 = 'I' → 0 < t.1 := fun t ht => hI t (by simp [ht])
    by_cases hM : op = 'M'
    · subst hM
      rw [runTokens_M] at h
      by_cases hchk : seq.length < left + len
      · rw [if_pos hchk] at h; exact absurd h (by simp)
      · rw [if_neg hchk] at h
        obtain ⟨h1, h2⟩ := ih _ _ _ _ _ hIts (fun e he => by have := hkeys e he; omega) h
        exact ⟨by simpa [insContrib, consumeLen] using h1, h2⟩
    · by_cases hD : op = 'D'
      · subst hD
        rw [runTokens_D] at h
        by_cases hchk : seq.length < left
        · rw [if_pos hchk] at h; exact absurd h (by simp)
        · rw [if_neg hchk] at h
          obtain ⟨h1, h2⟩ := ih _ _ _ _ _ hIts hkeys h
          exact ⟨by simpa [insContrib, consumeLen] using h1, h2⟩
      · by_cases hopI : op = 'I'
        · subst hopI
          rw [runTokens_I] at h
          by_cases hchk : seq.length < left + len
          · rw [if_pos hchk] at h; exact absurd h (by simp)
          · rw [if_neg hchk] at h
            have hlen : 0 < len := hI (len, 'I') (by simp) rfl
            by_cases hend : end? = none ∨ left < end?.getD 0
            · rw [if_pos hend] at h
              rw [insUpd_fresh ins (left + pos) _
                (fun e he => by have := hkeys e he; omega)] at h
              obtain ⟨h1, h2⟩ := ih _ _ _ _ _ hIts
                (fun e he => by
                  rcases List.mem_append.mp he with he' | he'
                  · have := hkeys e he'; omega
                  · simp only [List.mem_singleton] at he'
                    rw [he']
                    simp only
                    omega) h
              refine ⟨?_, h2⟩
              rw [h1]
              simp [insContrib, consumeLen, hend, List.append_assoc]
            · rw [if_neg hend] at h
              obtain ⟨h1, h2⟩ := ih _ _ _ _ _ hIts
                (fun e he => by have := hkeys e he; omega) h
              refine ⟨?_, h2⟩
              rw [h1]
              simp [insContrib, consumeLen, hend]
        · by_cases hS : op = 'S'
          · subst hS
            rw [runTokens_S] at h
            by_cases hchk : seq.length < left + len
            · rw [if_pos hchk] at h; exact absurd h (by simp)
            · rw [if_neg hchk] at h
              obtain ⟨h1, h2⟩ := ih _ _ _ _ _ hIts
                (fun e he => by have := hkeys e he; omega) h
              exact ⟨by simpa [insContrib, consumeLen] using h1, h2⟩
          · rw [runTokens_unsupported seq qual pos end? len op ts ns nq ins left
              hM hD hopI hS] at h
            exact absurd h (by simp)

/-- C3 (amended): on a successful `apply_cigar` call whose `I` tokens all
have positive length, the bases of every `I` token are omitted from the
main sequence — the returned sequence is built from `M` slices and `D` gap
runs only (`strandContrib`) — and an `I` token is recorded in the returned
insertion map, keyed by `pos` plus the number of read bases consumed before
it (`left`), exactly when `clip_to` is `None` or `left < clip_to + 1`.  The
recording condition tests the read-consumption offset `left`, not the key,
and never consults `clip_from`. -/
theorem apply_cigar_insertions (cigar seq qual : List Char)
    (pos clip_from : Nat) (clip_to : Option Nat) (ts : List (Nat × Char))
    (s q : List Char) (ins : List (Nat × List Char × List Char))
    (hts : parseCigarTokens cigar = some ts)
    (hI : ∀ t ∈ ts, t.2 = 'I' → 0 < t.1)
    (h : apply_cigar cigar seq qual pos clip_from clip_to = .ok (s, q, ins)) :
    ins = insContrib seq qual pos (clip_to.map (· + 1)) 0 ts ∧
    s = pySlice (List.replicate pos '-' ++ strandContrib seq '-' 0 ts)
      clip_from (clip_to.map (· + 1)) := by
  obtain ⟨ts', hts', -, -, hs, -⟩ :=
    apply_cigar_ok_spec cigar seq qual pos clip_from clip_to s q ins h
  rw [hts] at hts'
  obtain rfl : ts = ts' := by simpa using hts'
  refine ⟨?_, hs⟩
  unfold apply_cigar at h
  rw [hts] at h
  simp only at h
  cases hr : runTokens seq qual pos (clip_to.map (· + 1)) ts
      (List.replicate pos '-') (List.replicate pos '!') [] 0 with
  | error e => rw [hr] at h; exact absurd h (by simp)
  | ok r =>
    rw [hr] at h
    simp only at h
    obtain ⟨hins, -⟩ := runTokens_ok_ins seq qual pos (clip_to.map (· + 1)) ts
      _ _ _ _ _ hI (by simp) hr
    obtain ⟨ns, nq, ins0, left⟩ := r
    simp only at hins
    by_cases hshort : left < seq.length
    · rw [if_pos hshort] at h; exact absurd h (by simp)
    · rw [if_neg hshort] at h
      simp only [Except.ok.injEq, Prod.mk.injEq] at h
      obtain ⟨-, -, hi⟩ := h
      rw [← hi, hins]
      simp

/-- Witness for C3 (amended): `1M1I1M` over three bases with clip window
`[2, 5]` — the insertion at consumed offset 1 is recorded even though its
key 1 lies left of `clip_from = 2`, and the `I` base `'C'` is absent from
the main sequence. -/
theorem apply_cigar_insertions_witness :
    [(1, (['C'], ['J']))] =
      insContrib ['A', 'C', 'G'] ['I', 'J', 'K'] 0 (some 6) 0
        [(1, 'M'), (1, 'I'), (1, 'M')] ∧
    ([] : List Char) =
      pySlice (List.replicate 0 '-' ++
        strandContrib ['A', 'C', 'G'] '-' 0 [(1, 'M'), (1, 'I'), (1, 'M')])
        2 (some 6) :=
  apply_cigar_insertions ['1', 'M', '1', 'I', '1', 'M'] ['A', 'C', 'G']
    ['I', 'J', 'K'] 0 2 (some 5) [(1, 'M'), (1, 'I'), (1, 'M')] [] []
    [(1, (['C'], ['J']))] (by decide) (by decide) rfl

/-- Counterexample for C3 as stated: with `pos = 0`, `clip_from = 2`,
`clip_to = 5`, the CIGAR `1M1I1M` records its insertion at key 1, which
does **not** fall inside the clip window `[2, 5]` — recording is not
"exactly when the position falls inside the clip window". -/
theorem apply_cigar_insertions_cex :
    apply_cigar ['1', 'M', '1', 'I', '1', 'M'] ['A', 'C', 'G'] ['I', 'J', 'K']
      0 2 (some 5) = .ok ([], [], [(1, (['C'], ['J']))]) ∧
    ¬ (2 ≤ 1 ∧ 1 ≤ 5) :=
  ⟨rfl, by decide⟩

/-! ## Merge lemmas -/

/-- The per-position resolution of two covering mates is symmetric in the
two mates. -/
theorem mergeChar_comm (c1 c2 : Char) (q1 q2 qc d : Int) :
    mergeChar c1 q1 c2 q2 qc d = mergeChar c2 q2 c1 q1 qc d := by
  unfold mergeChar
  by_cases h12 : c1 = c2
  · subst h12
    by_cases hgap : c1 = '-'
    · simp [hgap]
    · simp [hgap, or_comm]
  · have h21 : ¬c2 = c1 := fun h => h12 h.symm
    have hgap : ¬(c1 = '-' ∧ c2 = '-') := fun h => h12 (h.1.trans h.2.symm)
    have hgap' : ¬(c2 = '-' ∧ c1 = '-') := fun h => h21 (h.1.trans h.2.symm)
    rw [if_neg hgap, if_neg hgap', if_neg h12, if_neg h21, abs_sub_comm q2 q1]
    by_cases hd : |q1 - q2| ≥ d
    · rw [if_pos hd, if_pos hd]
      by_cases h1 : q1 > max q2 qc
      · have hlt : q2 < q1 := lt_of_le_of_lt (le_max_left q2 qc) h1
        have h2 : ¬q2 > max q1 qc := fun hcon =>
          absurd (lt_trans (lt_of_le_of_lt (le_max_left q1 qc) hcon) hlt)
            (lt_irrefl q1)
        rw [if_pos h1, if_neg h2, if_pos h1]
      · rw [if_neg h1]
        by_cases h2 : q2 > max q1 qc
        · rw [if_pos h2, if_pos h2]
        · rw [if_neg h2, if_neg h2, if_neg h1]
    · rw [if_neg hd, if_neg hd]

/-- The main merge loop is symmetric in the two mates when they have equal
length (the case where the normalizing swap does not fire), provided each
quality string matches its sequence in length. -/
theorem mergeBody_comm (qc d : Int) :
    ∀ (s1 q1 s2 q2 : List Char), s1.length = s2.length →
      q1.length = s1.length → q2.length = s2.length →
      mergeBody s1 q1 s2 q2 qc d = mergeBody s2 q2 s1 q1 qc d := by
  intro s1
  induction s1 with
  | nil =>
    intro q1 s2 q2 hlen hq1 hq2
    obtain rfl : s2 = [] := List.length_eq_zero.mp (by simpa using hlen.symm)
    obtain rfl : q1 = [] := List.length_eq_zero.mp (by simpa using hq1)
    obtain rfl : q2 = [] := List.length_eq_zero.mp (by simpa using hq2)
    rfl
  | cons c1 s1 ih =>
    intro q1 s2 q2 hlen hq1 hq2
    obtain ⟨c2, s2, rfl⟩ : ∃ c s, s2 = c :: s :=
      match s2, hlen with
      | c :: s, _ => ⟨c, s, rfl⟩
    obtain ⟨d1, q1, rfl⟩ : ∃ c s, q1 = c :: s :=
      match q1, hq1 with
      | c :: s, _ => ⟨c, s, rfl⟩
    obtain ⟨d2, q2, rfl⟩ : ∃ c s, q2 = c :: s :=
      match q2, hq2 with
      | c :: s, _ => ⟨c, s, rfl⟩
    simp only [mergeBody]
    rw [mergeChar_comm, ih q1 s2 q2 (by simpa using hlen) (by simpa using hq1)
      (by simpa using hq2)]

/-- The swap-then-merge is symmetric in the two mates for sequences of any
lengths (given matching quality-string lengths): unequal lengths normalize
to the same order, equal lengths merge position-by-position
symmetrically. -/
theorem mergeNoIns_comm (s1 s2 q1 q2 : List Char) (qc d : Int)
    (hq1 : q1.length = s1.length) (hq2 : q2.length = s2.length) :
    mergeNoIns s1 s2 q1 q2 qc d = mergeNoIns s2 s1 q2 q1 qc d := by
  unfold mergeNoIns
  rcases lt_trichotomy s1.length s2.length with hlt | heq | hgt
  · rw [if_neg (by omega), if_pos hlt]
  · rw [if_neg (by omega), if_neg (by omega)]
    exact mergeBody_comm qc d s1 q1 s2 q2 heq hq1 hq2
  · rw [if_pos hgt, if_neg (by omega)]

/-- The insertion-splicing loop is symmetric in the two insertion maps when
every entry of each map pairs a quality string of the length of its
insertion sequence. -/
theorem spliceFrom_comm (ins1 ins2 : Nat → List Char × List Char)
    (hi1 : ∀ p, ((ins1 p).2).length = ((ins1 p).1).length)
    (hi2 : ∀ p, ((ins2 p).2).length = ((ins2 p).1).length) :
    ∀ (n : Nat) (m : List Char),
      spliceFrom ins1 ins2 n m = spliceFrom ins2 ins1 n m := by
  intro n
  induction n with
  | zero => intro m; rfl
  | succ p ih =>
    intro m
    simp only [spliceFrom]
    rw [mergeNoIns_comm (ins1 p).1 (ins2 p).1 (ins1 p).2 (ins2 p).2 10 5
      (hi1 p) (hi2 p)]
    by_cases h1 : (ins1 p).1 = [] <;> by_cases h2 : (ins2 p).1 = [] <;>
      simp only [h1, h2, and_self, and_true, and_false, false_and, if_true,
        if_false, ite_true, ite_false] <;> apply ih

/-- C4: `merge_pairs` is symmetric under swapping the two mates — sequences
of possibly different lengths, quality strings, insertion maps, any cutoff
and delta — provided each quality string (of the mates and of the recorded
insertions) has the length of its sequence, as Python's `IndexError`-free
executions require. -/
theorem merge_pairs_comm (s1 s2 q1 q2 : List Char)
    (ins1 ins2 : Nat → List Char × List Char) (qc d : Int)
    (hq1 : q1.length = s1.length) (hq2 : q2.length = s2.length)
    (hi1 : ∀ p, ((ins1 p).2).length = ((ins1 p).1).length)
    (hi2 : ∀ p, ((ins2 p).2).length = ((ins2 p).1).length) :
    merge_pairs s1 s2 q1 q2 ins1 ins2 qc d =
      merge_pairs s2 s1 q2 q1 ins2 ins1 qc d := by
  unfold merge_pairs
  rw [mergeNoIns_comm s1 s2 q1 q2 qc d hq1 hq2]
  exact spliceFrom_comm ins1 ins2 hi1 hi2 _ _

/-- Witness for C4: a concrete swap with unequal mate lengths and a
nonempty insertion map on each side. -/
theorem merge_pairs_comm_witness :
    merge_pairs ['A', 'C'] ['A', 'G', 'T'] ['I', '#'] ['I', 'I', 'I']
        (fun p => if p = 1 then (['G'], ['I']) else ([], []))
        (fun p => if p = 2 then (['T', 'T'], ['I', 'I']) else ([], []))
        10 5 =
      merge_pairs ['A', 'G', 'T'] ['A', 'C'] ['I', 'I', 'I'] ['I', '#']
        (fun p => if p = 2 then (['T', 'T'], ['I', 'I']) else ([], []))
        (fun p => if p = 1 then (['G'], ['I']) else ([], []))
        10 5 :=
  merge_pairs_comm ['A', 'C'] ['A', 'G', 'T'] ['I', '#'] ['I', 'I', 'I']
    (fun p => if p = 1 then (['G'], ['I']) else ([], []))
    (fun p => if p = 2 then (['T', 'T'], ['I', 'I']) else ([], []))
    10 5 rfl rfl
    (fun p => by by_cases h : p = 1 <;> simp [h])
    (fun p => by by_cases h : p = 2 <;> simp [h])

/-- Splicing with the two empty insertion maps leaves the merged sequence
unchanged. -/
theorem spliceFrom_empty : ∀ (n : Nat) (m : List Char),
    spliceFrom emptyIns emptyIns n m = m := by
  intro n
  induction n with
  | zero => intro m; rfl
  | succ p ih => intro m; simpa [spliceFrom, emptyIns] using ih m

/-- Entry `i` of the merge loop while both mates cover position `i`. -/
theorem mergeBody_getD_lt (qc d : Int) :
    ∀ (i : Nat) (s1 q1 s2 q2 : List Char), i < s1.length → i < s2.length →
      q1.length = s1.length → q2.length = s2.length →
      (mergeBody s1 q1 s2 q2 qc d).getD i '?' =
        mergeChar (s1.getD i '?') (qualVal (q1.getD i '!'))
          (s2.getD i '?') (qualVal (q2.getD i '!')) qc d := by
  intro i
  induction i with
  | zero =>
    intro s1 q1 s2 q2 h1 h2 hq1 hq2
    obtain ⟨c1, s1, rfl⟩ : ∃ c s, s1 = c :: s :=
      match s1, h1 with | c :: s, _ => ⟨c, s, rfl⟩
    obtain ⟨c2, s2, rfl⟩ : ∃ c s, s2 = c :: s :=
      match s2, h2 with | c :: s, _ => ⟨c, s, rfl⟩
    obtain ⟨d1, q1, rfl⟩ : ∃ c s, q1 = c :: s :=
      match q1, hq1 with | c :: s, _ => ⟨c, s, rfl⟩
    obtain ⟨d2, q2, rfl⟩ : ∃ c s, q2 = c :: s :=
      match q2, hq2 with | c :: s, _ => ⟨c, s, rfl⟩
    rfl
  | succ i ih =>
    intro s1 q1 s2 q2 h1 h2 hq1 hq2
    obtain ⟨c1, s1, rfl⟩ : ∃ c s, s1 = c :: s :=
      match s1, h1 with | c :: s, _ => ⟨c, s, rfl⟩
    obtain ⟨c2, s2, rfl⟩ : ∃ c s, s2 = c :: s :=
      match s2, h2 with | c :: s, _ => ⟨c, s, rfl⟩
    obtain ⟨d1, q1, rfl⟩ : ∃ c s, q1 = c :: s :=
      match q1, hq1 with | c :: s, _ => ⟨c, s, rfl⟩
    obtain ⟨d2, q2, rfl⟩ : ∃ c s, q2 = c :: s :=
      match q2, hq2 with | c :: s, _ => ⟨c, s, rfl⟩
    simp only [mergeBody, List.getD_cons_succ]
    exact ih s1 q1 s2 q2 (by simpa using h1) (by simpa using h2)
      (by simpa using hq1) (by simpa using hq2)

/-- Entry `i` of the merge loop past the end of the first mate. -/
theorem mergeBody_getD_ge (qc d : Int) :
    ∀ (i : Nat) (s1 q1 s2 q2 : List Char), s1.length ≤ i → i < s2.length →
      q1.length = s1.length → q2.length = s2.length →
      (mergeBody s1 q1 s2 q2 qc d).getD i '?' =
        mergeTailChar (s2.getD i '?') (qualVal (q2.getD i '!')) qc := by
  intro i
  induction i with
  | zero =>
    intro s1 q1 s2 q2 h1 h2 hq1 hq2
    obtain rfl : s1 = [] := List.length_eq_zero.mp (by omega)
    obtain rfl : q1 = [] := List.length_eq_zero.mp (by simpa using hq1)
    obtain ⟨c2, s2, rfl⟩ : ∃ c s, s2 = c :: s :=
      match s2, h2 with | c :: s, _ => ⟨c, s, rfl⟩
    obtain ⟨d2, q2, rfl⟩ : ∃ c s, q2 = c :: s :=
      match q2, hq2 with | c :: s, _ => ⟨c, s, rfl⟩
    rfl
  | succ i ih =>
    intro s1 q1 s2 q2 h1 h2 hq1 hq2
    obtain ⟨c2, s2, rfl⟩ : ∃ c s, s2 = c :: s :=
      match s2, h2 with | c :: s, _ => ⟨c, s, rfl⟩
    obtain ⟨d2, q2, rfl⟩ : ∃ c s, q2 = c :: s :=
      match q2, hq2 with | c :: s, _ => ⟨c, s, rfl⟩
    cases s1 with
    | nil =>
      obtain rfl : q1 = [] := List.length_eq_zero.mp (by simpa using hq1)
      simp only [mergeBody, List.getD_cons_succ]
      exact ih [] [] s2 q2 (by simp) (by simpa using h2) rfl
        (by simpa using hq2)
    | cons c1 s1 =>
      obtain ⟨d1, q1, rfl⟩ : ∃ c s, q1 = c :: s :=
        match q1, hq1 with | c :: s, _ => ⟨c, s, rfl⟩
      simp only [mergeBody, List.getD_cons_succ]
      exact ih s1 q1 s2 q2 (by simpa using h1) (by simpa using h2)
        (by simpa using hq1) (by simpa using hq2)

/-- On differing base calls, the covered-position resolution picks the
higher-quality call exactly when its quality exceeds the cutoff and exceeds
the other call's quality by at least the minimum delta; otherwise it yields
`'N'`. -/
theorem mergeChar_disagree (c1 c2 : Char) (q1 q2 qc d : Int) (hne : c1 ≠ c2) :
    mergeChar c1 q1 c2 q2 qc d =
      if q1 ≠ q2 ∧ qc < max q1 q2 ∧ min q1 q2 + d ≤ max q1 q2 then
        (if q2 < q1 then c1 else c2)
      else 'N' := by
  have hgap : ¬(c1 = '-' ∧ c2 = '-') := fun h => hne (h.1.trans h.2.symm)
  unfold mergeChar
  rw [if_neg hgap, if_neg hne]
  rcases lt_trichotomy q1 q2 with h | h | h
  · rw [abs_of_nonneg (by omega), max_eq_right h.le, min_eq_left h.le]
    have hn1 : ¬q1 > max q2 qc := not_lt.mpr (le_trans h.le (le_max_left q2 qc))
    by_cases hd2 : q2 - q1 ≥ d
    · rw [if_pos hd2, if_neg hn1]
      by_cases hqc : q2 > qc
      · rw [if_pos (max_lt h hqc), if_pos ⟨by omega, hqc, by omega⟩,
          if_neg (by omega)]
      · rw [if_neg (fun hcon => hqc (lt_of_le_of_lt (le_max_right q1 qc) hcon)),
          if_neg (fun hc => hqc hc.2.1)]
    · rw [if_neg hd2, if_neg (fun hc => hd2 (by omega))]
  · subst h
    have hn : ¬q1 > max q1 qc := not_lt.mpr (le_max_left q1 qc)
    simp only [sub_self, abs_zero]
    by_cases hd0 : (0 : Int) ≥ d
    · rw [if_pos hd0, if_neg hn, if_neg hn, if_neg (by simp)]
    · rw [if_neg hd0, if_neg (by simp)]
  · rw [abs_of_nonpos (by omega), max_eq_left h.le, min_eq_right h.le]
    have hn2 : ¬q2 > max q1 qc := not_lt.mpr (le_trans h.le (le_max_left q1 qc))
    by_cases hd2 : q1 - q2 ≥ d
    · rw [if_pos (by omega), ]
      by_cases hqc : q1 > qc
      · rw [if_pos (max_lt h hqc), if_pos ⟨by omega, hqc, by omega⟩,
          if_pos (by omega)]
      · rw [if_neg (fun hcon => hqc (lt_of_le_of_lt (le_max_right q2 qc) hcon)),
          if_neg hn2, if_neg (fun hc => hqc hc.2.1)]
    · rw [if_neg (by omega), if_neg (fun hc => hd2 (by omega))]

/-- C5: at every position covered by both mates where the base calls
differ, the merged character is the higher-quality call exactly when that
call's quality exceeds the cutoff and exceeds the other call's quality by
at least `minimum_q_delta`; in every other disagreeing case it is `'N'`
(in particular when the two qualities are equal, where no higher-quality
call exists). -/
theorem merge_pairs_disagree (s1 s2 q1 q2 : List Char) (qc d : Int) (i : Nat)
    (hq1 : q1.length = s1.length) (hq2 : q2.length = s2.length)
    (hle : s1.length ≤ s2.length) (hi : i < s1.length)
    (hne : s1.getD i '?' ≠ s2.getD i '?') :
    (merge_pairs s1 s2 q1 q2 emptyIns emptyIns qc d).getD i '?' =
      if qualVal (q1.getD i '!') ≠ qualVal (q2.getD i '!') ∧
          qc < max (qualVal (q1.getD i '!')) (qualVal (q2.getD i '!')) ∧
          min (qualVal (q1.getD i '!')) (qualVal (q2.getD i '!')) + d ≤
            max (qualVal (q1.getD i '!')) (qualVal (q2.getD i '!')) then
        (if qualVal (q2.getD i '!') < qualVal (q1.getD i '!') then s1.getD i '?'
         else s2.getD i '?')
      else 'N' := by
  unfold merge_pairs
  rw [spliceFrom_empty]
  unfold mergeNoIns
  rw [if_neg (by omega)]
  rw [mergeBody_getD_lt qc d i s1 q1 s2 q2 hi (by omega) hq1 hq2]
  exact mergeChar_disagree _ _ _ _ qc d hne

/-- Witness for C5: position 0 of a concrete disagreeing overlap, where the
second mate's call wins with quality 40 against 2 at cutoff 10, delta 5. -/
theorem merge_pairs_disagree_witness :
    (merge_pairs ['A'] ['C', 'G'] ['#'] ['I', 'I'] emptyIns emptyIns 10 5).getD 0 '?' =
      if qualVal ((['#'] : List Char).getD 0 '!') ≠ qualVal ((['I', 'I'] : List Char).getD 0 '!') ∧
          10 < max (qualVal ((['#'] : List Char).getD 0 '!'))
            (qualVal ((['I', 'I'] : List Char).getD 0 '!')) ∧
          min (qualVal ((['#'] : List Char).getD 0 '!'))
            (qualVal ((['I', 'I'] : List Char).getD 0 '!')) + 5 ≤
            max (qualVal ((['#'] : List Char).getD 0 '!'))
              (qualVal ((['I', 'I'] : List Char).getD 0 '!')) then
        (if qualVal ((['I', 'I'] : List Char).getD 0 '!') <
            qualVal ((['#'] : List Char).getD 0 '!') then
          (['A'] : List Char).getD 0 '?'
         else (['C', 'G'] : List Char).getD 0 '?')
      else 'N' :=
  merge_pairs_disagree ['A'] ['C', 'G'] ['#'] ['I', 'I'] 10 5 0 rfl rfl
    (by decide) (by decide) (by decide)

/-- C9: at every position beyond the end of the shorter padded mate, the
merged character is `'n'` exactly when the longer mate carries a gap of
quality zero there; otherwise it is the longer mate's base when that base's
quality exceeds the cutoff, and `'N'` when it does not. -/
theorem merge_pairs_past_end (s1 s2 q1 q2 : List Char) (qc d : Int) (i : Nat)
    (hq1 : q1.length = s1.length) (hq2 : q2.length = s2.length)
    (hle : s1.length ≤ s2.length) (hi1 : s1.length ≤ i) (hi2 : i < s2.length) :
    (merge_pairs s1 s2 q1 q2 emptyIns emptyIns qc d).getD i '?' =
      if s2.getD i '?' = '-' ∧ qualVal (q2.getD i '!') = 0 then 'n'
      else if qc < qualVal (q2.getD i '!') then s2.getD i '?'
      else 'N' := by
  unfold merge_pairs
  rw [spliceFrom_empty]
  unfold mergeNoIns
  rw [if_neg (by omega)]
  rw [mergeBody_getD_ge qc d i s1 q1 s2 q2 hi1 hi2 hq1 hq2]
  rfl

/-- Witness for C9: the inter-mate interval (`'-'` at quality 0) of a
concrete pair is marked `'n'` at position 1. -/
theorem merge_pairs_past_end_witness :
    (merge_pairs ['A'] ['A', '-', 'G'] ['I'] ['I', '!', 'I'] emptyIns emptyIns
        10 5).getD 1 '?' =
      if (['A', '-', 'G'] : List Char).getD 1 '?' = '-' ∧
          qualVal ((['I', '!', 'I'] : List Char).getD 1 '!') = 0 then 'n'
      else if 10 < qualVal ((['I', '!', 'I'] : List Char).getD 1 '!') then
        (['A', '-', 'G'] : List Char).getD 1 '?'
      else 'N' :=
  merge_pairs_past_end ['A'] ['A', '-', 'G'] ['I'] ['I', '!', 'I'] 10 5 1
    rfl rfl (by decide) (by decide) (by decide)

/-! ## Order lemmas for the variant sort -/

theorem charListLt_trans : ∀ (a b c : List Char), charListLt a b = true →
    charListLt b c = true → charListLt a c = true := by
  intro a
  induction a with
  | nil =>
    intro b c hab hbc
    cases b with
    | nil => simp [charListLt] at hab
    | cons y ys =>
      cases c with
      | nil => simp [charListLt] at hbc
      | cons z zs => rfl
  | cons x xs ih =>
    intro b c hab hbc
    cases b with
    | nil => simp [charListLt] at hab
    | cons y ys =>
      cases c with
      | nil => simp [charListLt] at hbc
      | cons z zs =>
        simp only [charListLt] at hab hbc ⊢
        by_cases hxy : x < y
        · by_cases hyz : y < z
          · rw [if_pos (lt_trans hxy hyz)]
          · rw [if_neg hyz] at hbc
            by_cases hzy : z < y
            · rw [if_pos hzy] at hbc; exact absurd hbc (by simp)
            · have heq : y = z := le_antisymm (le_of_not_lt hzy) (le_of_not_lt hyz)
              rw [if_pos (heq ▸ hxy)]
        · rw [if_neg hxy] at hab
          by_cases hyx : y < x
          · rw [if_pos hyx] at hab; exact absurd hab (by simp)
          · have heq : x = y := le_antisymm (le_of_not_lt hyx) (le_of_not_lt hxy)
            rw [if_neg hyx] at hab
            subst heq
            by_cases hxz : x < z
            · rw [if_pos hxz]
            · rw [if_neg hxz] at hbc ⊢
              by_cases hzx : z < x
              · rw [if_pos hzx] at hbc; exact absurd hbc (by simp)
              · rw [if_neg hzx] at hbc ⊢
                exact ih ys zs hab hbc

theorem charListLt_connex : ∀ (a b : List Char), charListLt a b = false →
    charListLt b a = false → a = b := by
  intro a
  induction a with
  | nil =>
    intro b hab _
    cases b with
    | nil => rfl
    | cons y ys => simp [charListLt] at hab
  | cons x xs ih =>
    intro b hab hba
    cases b with
    | nil => simp [charListLt] at hba
    | cons y ys =>
      simp only [charListLt] at hab hba
      by_cases hxy : x < y
      · rw [if_pos hxy] at hab; exact absurd hab (by simp)
      · by_cases hyx : y < x
        · rw [if_pos hyx] at hba; exact absurd hba (by simp)
        · have heq : x = y := le_antisymm (le_of_not_lt hyx) (le_of_not_lt hxy)
          subst heq
          rw [if_neg hxy, if_neg hxy] at hab hba
          rw [ih ys hab hba]

theorem charListLt_false_trans (a b c : List Char)
    (hab : charListLt a b = false) (hbc : charListLt b c = false) :
    charListLt a c = false := by
  by_contra h
  rw [Bool.not_eq_false] at h
  cases hcb : charListLt c b with
  | true => exact absurd (charListLt_trans a c b h hcb) (by rw [hab]; simp)
  | false =>
    obtain rfl : b = c := charListLt_connex b c hbc hcb
    rw [h] at hab
    exact absurd hab (by simp)

/-- Unfolding of the Python triple comparison into its three tie-break
levels. -/
theorem tripleGe_iff (a b : Nat × Nat × List Char) :
    tripleGe a b = true ↔
      b.1 < a.1 ∨ (a.1 = b.1 ∧ b.2.1 < a.2.1) ∨
        (a.1 = b.1 ∧ a.2.1 = b.2.1 ∧ charListLt a.2.2 b.2.2 = false) := by
  obtain ⟨a1, a2, a3⟩ := a
  obtain ⟨b1, b2, b3⟩ := b
  unfold tripleGe
  simp only
  by_cases h1 : a1 = b1
  · subst h1
    by_cases h2 : a2 = b2
    · subst h2
      simp [Bool.not_eq_true']
    · simp [h2]
  · simp [h1]

instance : IsTrans (Nat × Nat × List Char) variantGe :=
  ⟨by
    intro a b c hab hbc
    unfold variantGe at *
    rw [tripleGe_iff] at hab hbc ⊢
    rcases hab with h | ⟨he, h⟩ | ⟨he, he2, h⟩ <;>
      rcases hbc with g | ⟨ge, g⟩ | ⟨ge, ge2, g⟩
    · left; omega
    · left; omega
    · left; omega
    · left; omega
    · right; left; exact ⟨by omega, by omega⟩
    · right; left; exact ⟨by omega, by omega⟩
    · left; omega
    · right; left; exact ⟨by omega, by omega⟩
    · right; right;
      exact ⟨by omega, by omega, charListLt_false_trans _ _ _ h g⟩⟩

instance : IsTotal (Nat × Nat × List Char) variantGe :=
  ⟨by
    intro a b
    unfold variantGe
    rw [tripleGe_iff, tripleGe_iff]
    rcases Nat.lt_trichotomy a.1 b.1 with h | h | h
    · right; left; omega
    · rcases Nat.lt_trichotomy a.2.1 b.2.1 with h2 | h2 | h2
      · right; right; left; omega
      · cases hc : charListLt a.2.2 b.2.2 with
        | false => left; right; right; exact ⟨h, h2, rfl⟩
        | true =>
          right; right; right
          refine ⟨h.symm, h2.symm, ?_⟩
          cases hc2 : charListLt b.2.2 a.2.2 with
          | false => rfl
          | true =>
            have := charListLt_trans _ _ _ hc hc2
            have hirr : charListLt a.2.2 a.2.2 = false := by
              clear hc hc2 this h h2
              induction a.2.2 with
              | nil => rfl
              | cons x xs ih => simpa [charListLt] using ih
            rw [hirr] at this
            exact absurd this (by simp)
      · left; right; left; omega
    · left; left; omega⟩

instance : IsAntisymm (Nat × Nat × List Char) variantGe :=
  ⟨by
    intro a b hab hba
    unfold variantGe at hab hba
    rw [tripleGe_iff] at hab hba
    obtain ⟨a1, a2, a3⟩ := a
    obtain ⟨b1, b2, b3⟩ := b
    simp only at hab hba
    have h1 : a1 = b1 := by omega
    subst h1
    have h2 : a2 = b2 := by omega
    subst h2
    have h3 : charListLt a3 b3 = false := by
      rcases hab with h | ⟨-, h⟩ | ⟨-, -, h⟩ <;> first | omega | exact h
    have h4 : charListLt b3 a3 = false := by
      rcases hba with h | ⟨-, h⟩ | ⟨-, -, h⟩ <;> first | omega | exact h
    rw [charListLt_connex a3 b3 h3 h4]⟩

/-- The sorted triples depend only on the multiset of accumulated merged
sequences, not on their accumulation order. -/
theorem rankTriples_perm (ms ms2 : List (List Char)) (hperm : ms.Perm ms2) :
    rankTriples ms = rankTriples ms2 := by
  unfold rankTriples
  have hcnt : ms.dedup.map (fun s => (seqCount ms s, gapPrefixLen s, s)) =
      ms.dedup.map (fun s => (seqCount ms2 s, gapPrefixLen s, s)) :=
    List.map_congr_left (fun s _ => by
      unfold seqCount
      rw [hperm.countP_eq])
  have hp : (ms.dedup.map (fun s => (seqCount ms s, gapPrefixLen s, s))).Perm
      (ms2.dedup.map (fun s => (seqCount ms2 s, gapPrefixLen s, s))) := by
    rw [hcnt]
    exact hperm.dedup.map _
  exact List.eq_of_perm_of_sorted
    (((List.perm_insertionSort variantGe _).trans hp).trans
      (List.perm_insertionSort variantGe _).symm)
    (List.sorted_insertionSort variantGe _)
    (List.sorted_insertionSort variantGe _)

/-- The third components of the sorted triples are pairwise distinct (one
triple per distinct merged sequence). -/
theorem rankTriples_seq_ne (ms : List (List Char)) :
    (rankTriples ms).Pairwise (fun a b => a.2.2 ≠ b.2.2) := by
  have hdedup : ms.dedup.Pairwise (fun a b => a ≠ b) := ms.nodup_dedup
  have hmap : (ms.dedup.map (fun s => (seqCount ms s, gapPrefixLen s, s))).Pairwise
      (fun a b => a.2.2 ≠ b.2.2) :=
    hdedup.map _ (fun a b hab => by simpa using hab)
  exact ((List.perm_insertionSort variantGe _).pairwise_iff
    (fun h => fun he => h he.symm)).mpr hmap

/-- C7: within a (reference, cutoff) group the variant rows are sorted by
count descending, then gap-prefix length descending, then sequence value
descending (a strict order, since each variant's full merged sequence is
distinct); the result is independent of the order the merged sequences were
accumulated; and each row's rank equals its 0-based position (the sort keys
are the triples over the full, unstripped sequences — the emitted `seq`
column is the stripped form). -/
theorem rankRows_spec (rn : String) (qc : Int) (ms ms2 : List (List Char))
    (hperm : ms.Perm ms2) :
    rankRows rn qc ms = rankRows rn qc ms2 ∧
    (rankTriples ms).Pairwise (fun a b =>
      b.1 < a.1 ∨ (a.1 = b.1 ∧ b.2.1 < a.2.1) ∨
        (a.1 = b.1 ∧ a.2.1 = b.2.1 ∧ charListLt b.2.2 a.2.2 = true)) ∧
    (rankRows rn qc ms).map (fun r => r.rank) =
      List.range (rankTriples ms).length := by
  refine ⟨?_, ?_, ?_⟩
  · unfold rankRows
    rw [rankTriples_perm ms ms2 hperm]
  · have hsorted : (rankTriples ms).Pairwise variantGe :=
      List.sorted_insertionSort variantGe _
    have hne := rankTriples_seq_ne ms
    refine (hsorted.and hne).imp ?_
    rintro a b ⟨hge, hne2⟩
    rcases (tripleGe_iff a b).mp hge with h | ⟨he, h⟩ | ⟨he, he2, h⟩
    · exact Or.inl h
    · exact Or.inr (Or.inl ⟨he, h⟩)
    · refine Or.inr (Or.inr ⟨he, he2, ?_⟩)
      cases hba : charListLt b.2.2 a.2.2 with
      | true => rfl
      | false => exact absurd (charListLt_connex _ _ h hba) hne2
  · unfold rankRows
    rw [List.map_map]
    exact List.enum_map_fst _

/-- Witness for C7: a concrete group with a tie on count resolved by
gap-prefix length, accumulated in two different orders. -/
theorem rankRows_spec_witness :
    rankRows "r" 15 [['A', 'C'], ['-', 'G'], ['A', 'C']] =
      rankRows "r" 15 [['-', 'G'], ['A', 'C'], ['A', 'C']] ∧
    (rankTriples [['A', 'C'], ['-', 'G'], ['A', 'C']]).Pairwise (fun a b =>
      b.1 < a.1 ∨ (a.1 = b.1 ∧ b.2.1 < a.2.1) ∨
        (a.1 = b.1 ∧ a.2.1 = b.2.1 ∧ charListLt b.2.2 a.2.2 = true)) ∧
    (rankRows "r" 15 [['A', 'C'], ['-', 'G'], ['A', 'C']]).map (fun r => r.rank) =
      List.range (rankTriples [['A', 'C'], ['-', 'G'], ['A', 'C']]).length :=
  rankRows_spec "r" 15 [['A', 'C'], ['-', 'G'], ['A', 'C']]
    [['-', 'G'], ['A', 'C'], ['A', 'C']] (by decide)

/-- Filtering a duplicate-free list for one of its members yields exactly
that member. -/
theorem filter_eq_of_nodup (l : List (List Char)) (m : List Char)
    (hn : l.Nodup) (hm : m ∈ l) :
    l.filter (fun t => decide (t = m)) = [m] := by
  induction l with
  | nil => simp at hm
  | cons a l ih =>
    rcases List.mem_cons.mp hm with rfl | hm2
    · rw [List.filter_cons_of_pos (by simp)]
      have : l.filter (fun t => decide (t = m)) = [] :=
        List.filter_eq_nil_iff.mpr (fun b hb => by
          simp only [decide_eq_true_eq]
          rintro rfl
          exact (List.nodup_cons.mp hn).1 hb)
      rw [this]
    · have hne : a ≠ m := fun h => (List.nodup_cons.mp hn).1 (h ▸ hm2)
      rw [List.filter_cons_of_neg (by simpa using hne)]
      exact ih (List.nodup_cons.mp hn).2 hm2

/-- C1 (amended): within one (reference, cutoff) group, merged sequences
that are identical as full padded strings are counted as one variant — the
sorted output contains exactly one triple for each distinct full merged
sequence `m`, carrying multiplicity `seqCount ms m`.  (Sequences that
coincide only after stripping flanking gaps remain distinct variants: the
counter keys the full sequence, and stripping is applied only to the output
`seq` field.) -/
theorem rankTriples_one_per_variant (ms : List (List Char)) (m : List Char)
    (hm : m ∈ ms) :
    (rankTriples ms).filter (fun t => decide (t.2.2 = m)) =
      [(seqCount ms m, gapPrefixLen m, m)] := by
  have hperm : ((rankTriples ms).filter (fun t => decide (t.2.2 = m))).Perm
      ((ms.dedup.map (fun s => (seqCount ms s, gapPrefixLen s, s))).filter
        (fun t => decide (t.2.2 = m))) :=
    (List.perm_insertionSort variantGe _).filter _
  rw [List.filter_map] at hperm
  have hfil : (ms.dedup.filter ((fun t => decide (t.2.2 = m)) ∘
      (fun s => (seqCount ms s, gapPrefixLen s, s)))) =
      ms.dedup.filter (fun t => decide (t = m)) := by
    apply List.filter_congr
    intro s _
    rfl
  rw [hfil, filter_eq_of_nodup ms.dedup m ms.nodup_dedup
    (List.mem_dedup.mpr hm)] at hperm
  simpa using List.perm_singleton.mp hperm

/-- Witness for C1 (amended): the group `[m1, m2, m1]` has exactly one
triple for `m1`, with count 2. -/
theorem rankTriples_one_per_variant_witness :
    (rankTriples [['-', 'A'], ['A'], ['-', 'A']]).filter
        (fun t => decide (t.2.2 = ['-', 'A'])) =
      [(seqCount [['-', 'A'], ['A'], ['-', 'A']] ['-', 'A'],
        gapPrefixLen ['-', 'A'], ['-', 'A'])] :=
  rankTriples_one_per_variant [['-', 'A'], ['A'], ['-', 'A']] ['-', 'A']
    (by decide)

/-- Counterexample for C1 as stated: the merged sequences `-AC` and `AC`
are identical after stripping flanking gaps, yet `sam2aln` counts them as
two variants — the group's output holds two rows of count 1 (with
different offsets), not a single row of count 2. -/
theorem rankRows_strip_cex :
    stripGaps ['-', 'A', 'C'] = stripGaps ['A', 'C'] ∧
    rankRows "r" 15 [['-', 'A', 'C'], ['A', 'C']] =
      [⟨"r", 15, 0, 1, 1, ['A', 'C']⟩, ⟨"r", 15, 1, 1, 0, ['A', 'C']⟩] :=
  ⟨rfl, by decide⟩

/-! ## The per-cutoff rejection test -/

/-- Membership characterization of the accepted entries of the per-cutoff
loop. -/
theorem mem_cutoffMseqs_iff (s1 q1 s2 q2 : List Char) (maxP : ℚ)
    (cs : List Int) (qcut : Int) :
    ((qcut, mergedAt s1 q1 s2 q2 qcut) ∈ cutoffMseqs s1 q1 s2 q2 maxP cs) ↔
      (qcut ∈ cs ∧ ¬propN (mergedAt s1 q1 s2 q2 qcut) > maxP) := by
  unfold cutoffMseqs
  rw [List.mem_filterMap]
  constructor
  · rintro ⟨a, ha, hf⟩
    simp only at hf
    by_cases hr : propN (mergedAt s1 q1 s2 q2 a) > maxP
    · rw [if_pos hr] at hf; exact absurd hf (by simp)
    · rw [if_neg hr] at hf
      simp only [Option.some.injEq, Prod.mk.injEq] at hf
      obtain ⟨rfl, -⟩ := hf
      exact ⟨ha, hr⟩
  · rintro ⟨hmem, hr⟩
    exact ⟨qcut, hmem, by simp only; rw [if_neg hr]⟩

/-- Membership characterization of the per-cutoff failure rows. -/
theorem mem_cutoffFails_iff (qn : String) (s1 q1 s2 q2 : List Char)
    (maxP : ℚ) (cs : List Int) (qcut : Int) :
    (∃ pr mq, FailRow.excessN qn qcut s1 q1 s2 q2 pr mq ∈
        cutoffFails qn s1 q1 s2 q2 maxP cs) ↔
      (qcut ∈ cs ∧ propN (mergedAt s1 q1 s2 q2 qcut) > maxP) := by
  unfold cutoffFails
  constructor
  · rintro ⟨pr, mq, hrow⟩
    rw [List.mem_filterMap] at hrow
    obtain ⟨a, ha, hf⟩ := hrow
    simp only at hf
    by_cases hr : propN (mergedAt s1 q1 s2 q2 a) > maxP
    · rw [if_pos hr] at hf
      simp only [Option.some.injEq, FailRow.excessN.injEq] at hf
      obtain ⟨-, rfl, -⟩ := hf
      exact ⟨ha, hr⟩
    · rw [if_neg hr] at hf; exact absurd hf (by simp)
  · rintro ⟨hmem, hr⟩
    refine ⟨propN (mergedAt s1 q1 s2 q2 qcut), mergedAt s1 q1 s2 q2 qcut, ?_⟩
    rw [List.mem_filterMap]
    exact ⟨qcut, hmem, by simp only; rw [if_pos hr]⟩

/-- C8: for an accepted pair and a configured cutoff (with a nonempty
stripped merge, as the source's float division requires), the merge at that
cutoff is rejected to the failure report with no accepted entry exactly
when the fraction of `'N'` characters relative to the length after
stripping flanking gaps exceeds `max_prop_N`; and the outcome at one cutoff
is the same under any cutoff list containing it, so a rejection at one
cutoff leaves every other cutoff's outcome unchanged. -/
theorem cutoff_rejection (qn : String) (s1 q1 s2 q2 : List Char) (maxP : ℚ)
    (cutoffs : List Int) (qcut : Int) (hmem : qcut ∈ cutoffs)
    (hstrip : (stripGaps (mergedAt s1 q1 s2 q2 qcut)).length ≠ 0) :
    ((qcut, mergedAt s1 q1 s2 q2 qcut) ∈ cutoffMseqs s1 q1 s2 q2 maxP cutoffs ↔
      ¬propN (mergedAt s1 q1 s2 q2 qcut) > maxP) ∧
    ((∃ pr mq, FailRow.excessN qn qcut s1 q1 s2 q2 pr mq ∈
        cutoffFails qn s1 q1 s2 q2 maxP cutoffs) ↔
      propN (mergedAt s1 q1 s2 q2 qcut) > maxP) ∧
    (∀ cutoffs2, qcut ∈ cutoffs2 →
      ((qcut, mergedAt s1 q1 s2 q2 qcut) ∈ cutoffMseqs s1 q1 s2 q2 maxP cutoffs ↔
       (qcut, mergedAt s1 q1 s2 q2 qcut) ∈ cutoffMseqs s1 q1 s2 q2 maxP cutoffs2)) := by
  refine ⟨?_, ?_, ?_⟩
  · rw [mem_cutoffMseqs_iff]
    exact ⟨fun h => h.2, fun h => ⟨hmem, h⟩⟩
  · rw [mem_cutoffFails_iff]
    exact ⟨fun h => h.2, fun h => ⟨hmem, h⟩⟩
  · intro cutoffs2 hmem2
    rw [mem_cutoffMseqs_iff, mem_cutoffMseqs_iff]
    exact ⟨fun h => ⟨hmem2, h.2⟩, fun h => ⟨hmem, h.2⟩⟩

/-- Witness for C8: a clean overlap (`propN = 0 ≤ 1/2`) at cutoff 15 of the
configured list `[15, 20]`. -/
theorem cutoff_rejection_witness :
    ((15, mergedAt ['A'] ['I'] ['A'] ['I'] 15) ∈
        cutoffMseqs ['A'] ['I'] ['A'] ['I'] (1 / 2) [15, 20] ↔
      ¬propN (mergedAt ['A'] ['I'] ['A'] ['I'] 15) > 1 / 2) ∧
    ((∃ pr mq, FailRow.excessN "q" 15 ['A'] ['I'] ['A'] ['I'] pr mq ∈
        cutoffFails "q" ['A'] ['I'] ['A'] ['I'] (1 / 2) [15, 20]) ↔
      propN (mergedAt ['A'] ['I'] ['A'] ['I'] 15) > 1 / 2) ∧
    (∀ cutoffs2, (15 : Int) ∈ cutoffs2 →
      ((15, mergedAt ['A'] ['I'] ['A'] ['I'] 15) ∈
          cutoffMseqs ['A'] ['I'] ['A'] ['I'] (1 / 2) [15, 20] ↔
       (15, mergedAt ['A'] ['I'] ['A'] ['I'] 15) ∈
          cutoffMseqs ['A'] ['I'] ['A'] ['I'] (1 / 2) cutoffs2)) :=
  cutoff_rejection "q" ['A'] ['I'] ['A'] ['I'] (1 / 2) [15, 20] 15
    (by decide) (by decide)

/-! ## Decoding failures abort the stream -/

/-- A decoding error in one pair aborts the reading loop: the rows already
written for the preceding pairs stay, the error propagates, and nothing
after the failing pair is processed. -/
theorem sam2alnCollect_abort (read_mapping_cutoff : Int) (cutoffs : List Int)
    (max_prop_N : ℚ) (bad : SamRow × Option SamRow)
    (post : List (SamRow × Option SamRow)) (e : String)
    (hbad : parse_sam read_mapping_cutoff cutoffs max_prop_N bad.1 bad.2 =
      .error e) :
    ∀ pre : List (SamRow × Option SamRow),
      (∀ p ∈ pre, ∃ out,
        parse_sam read_mapping_cutoff cutoffs max_prop_N p.1 p.2 = .ok out) →
      sam2alnCollect read_mapping_cutoff cutoffs max_prop_N
          (pre ++ bad :: post) =
        ((sam2alnCollect read_mapping_cutoff cutoffs max_prop_N pre).1,
         (sam2alnCollect read_mapping_cutoff cutoffs max_prop_N pre).2.1,
         .error e) := by
  intro pre
  induction pre with
  | nil =>
    intro _
    simp only [List.nil_append, sam2alnCollect, hbad]
  | cons p pre ih =>
    intro hpre
    obtain ⟨out, hout⟩ := hpre p (by simp)
    have hrest := ih (fun p hp => hpre p (by simp [hp]))
    simp only [List.cons_append, sam2alnCollect, hout, List.append_eq, hrest]

/-- C2 (amended): a malformed CIGAR is **not** confined to its record — the
decoding error raised by `apply_cigar` propagates out of `parse_sam` and
aborts `sam2aln`: the insertion and failure rows of the pairs before the
failing one remain written, but no aligned row is ever produced and no
record after the failing one is processed. -/
theorem sam2aln_abort (read_mapping_cutoff : Int) (cutoffs : List Int)
    (max_prop_N : ℚ) (pre post : List (SamRow × Option SamRow))
    (bad : SamRow × Option SamRow) (e : String)
    (hpre : ∀ p ∈ pre, ∃ out,
      parse_sam read_mapping_cutoff cutoffs max_prop_N p.1 p.2 = .ok out)
    (hbad : parse_sam read_mapping_cutoff cutoffs max_prop_N bad.1 bad.2 =
      .error e) :
    (sam2aln read_mapping_cutoff cutoffs max_prop_N (pre ++ bad :: post)).2.2 =
      .error e ∧
    (sam2aln read_mapping_cutoff cutoffs max_prop_N (pre ++ bad :: post)).1 =
      (sam2aln read_mapping_cutoff cutoffs max_prop_N pre).1 ∧
    (sam2aln read_mapping_cutoff cutoffs max_prop_N (pre ++ bad :: post)).2.1 =
      (sam2aln read_mapping_cutoff cutoffs max_prop_N pre).2.1 := by
  have h := sam2alnCollect_abort read_mapping_cutoff cutoffs max_prop_N bad
    post e hbad pre hpre
  unfold sam2aln
  rw [h]
  exact ⟨rfl, rfl, rfl⟩

instance {e a : Type} [DecidableEq e] [DecidableEq a] : DecidableEq (Except e a) :=
  fun x y =>
    match x, y with
    | .error u, .error v =>
      if h : u = v then isTrue (by rw [h]) else isFalse (by simp [h])
    | .ok u, .ok v =>
      if h : u = v then isTrue (by rw [h]) else isFalse (by simp [h])
    | .error _, .ok _ => isFalse (by simp)
    | .ok _, .error _ => isFalse (by simp)

/-- A correctly mapped first mate. -/
def rowGood1 : SamRow := ⟨"a", 99, "r", 1, 60, ['2', 'M'], ['A', 'C'], ['I', 'I']⟩

/-- A correctly mapped second mate. -/
def rowGood2 : SamRow := ⟨"a", 147, "r", 1, 60, ['2', 'M'], ['A', 'C'], ['I', 'I']⟩

/-- A first mate whose CIGAR `"M"` violates the token grammar. -/
def rowBad1 : SamRow := ⟨"b", 99, "r", 1, 60, ['M'], ['A', 'C'], ['I', 'I']⟩

/-- Witness for C2 (amended): with a well-formed pair before and after the
malformed one, the run aborts with the decoding error and keeps only the
leading pair's (empty) insertion and failure output. -/
theorem sam2aln_abort_witness :
    (sam2aln 10 [15] (1 / 2)
        ([(rowGood1, some rowGood2)] ++ (rowBad1, some rowGood2) ::
          [(rowGood1, some rowGood2)])).2.2 =
      .error "Invalid CIGAR string: M" ∧
    (sam2aln 10 [15] (1 / 2)
        ([(rowGood1, some rowGood2)] ++ (rowBad1, some rowGood2) ::
          [(rowGood1, some rowGood2)])).1 =
      (sam2aln 10 [15] (1 / 2) [(rowGood1, some rowGood2)]).1 ∧
    (sam2aln 10 [15] (1 / 2)
        ([(rowGood1, some rowGood2)] ++ (rowBad1, some rowGood2) ::
          [(rowGood1, some rowGood2)])).2.1 =
      (sam2aln 10 [15] (1 / 2) [(rowGood1, some rowGood2)]).2.1 :=
  sam2aln_abort 10 [15] (1 / 2) [(rowGood1, some rowGood2)]
    [(rowGood1, some rowGood2)] (rowBad1, some rowGood2)
    "Invalid CIGAR string: M"
    (fun p hp => by
      rw [List.mem_singleton] at hp
      subst hp
      exact ⟨_, rfl⟩)
    rfl

/-- The good pair decodes and merges cleanly at cutoff 15: `propN = 0`. -/
theorem parse_sam_good :
    parse_sam 10 [15] (1 / 2) rowGood1 (some rowGood2) =
      .ok ⟨"r", [(15, ['A', 'C'])], [], []⟩ := by
  have hm : mergedAt ['A', 'C'] ['I', 'I'] ['A', 'C'] ['I', 'I'] 15 = ['A', 'C'] := by
    decide
  have h0 : propN ['A', 'C'] = 0 := by
    simp [propN, stripGaps, show (['A', 'C'] : List Char).count 'N' = 0 from by decide]
  simp only [parse_sam]
  rw [if_neg (by decide)]
  simp only [show apply_cigar rowGood1.cigar rowGood1.seq rowGood1.qual =
    .ok (['A', 'C'], ['I', 'I'], []) from rfl]
  simp only [show apply_cigar rowGood2.cigar rowGood2.seq rowGood2.qual =
    .ok (['A', 'C'], ['I', 'I'], []) from rfl]
  simp only [rowGood1, rowGood2, insertRowsOf, List.map_nil, List.nil_append,
    List.replicate, cutoffMseqs, cutoffFails, List.filterMap]
  simp only [hm, h0]
  norm_num

/-- The collect loop on the single good pair. -/
theorem sam2alnCollect_good :
    sam2alnCollect 10 [15] (1 / 2) [(rowGood1, some rowGood2)] =
      ([], [], .ok [("r", 15, ['A', 'C'])]) := by
  simp only [sam2alnCollect, parse_sam_good]
  rfl

/-- Counterexample for C2 as stated: a malformed CIGAR in the first pair is
fatal to the whole stream — the well-formed pair after it produces no
variant row at all (the aligned output is the propagated error), although
that same pair alone produces one. -/
theorem sam2aln_stream_cex :
    sam2aln 10 [15] (1 / 2)
        [((rowBad1, some rowGood2) : SamRow × Option SamRow),
         (rowGood1, some rowGood2)] =
      ([], [], .error "Invalid CIGAR string: M") ∧
    sam2aln 10 [15] (1 / 2) [((rowGood1, some rowGood2) : SamRow × Option SamRow)] =
      ([], [], .ok [⟨"r", 15, 0, 1, 0, ['A', 'C']⟩]) := by
  refine ⟨rfl, ?_⟩
  unfold sam2aln
  rw [sam2alnCollect_good]
  simp only [Except.map]
  rw [show alignedRows [("r", 15, ['A', 'C'])] =
    [⟨"r", 15, 0, 1, 0, ['A', 'C']⟩] from by decide]
